import Mathlib

/-!
bitTorrent-go: bencode decoder, handshake and piece download.

A shallow embedding of `cmd/mybittorrent/main.go`.

* Go strings and byte slices are lists of bytes, a byte being a natural number
  (0..255).
* A Go `interface{}` holding a decoded value is a `Value`; the nil interface is
  `Value.nil`.
* A run-time panic (index or slice out of range, failed type assertion) is an
  explicit outcome, distinct from a returned `error`.
* `decodeBencode` recurses and loops without a bound in the source, so the
  embedding carries a fuel counter: `none` means the fuel ran out before the Go
  function returned, `some o` means the Go function finishes with outcome `o`.
* The two ceilings of `downloadPiece` go through `float64`; the conversion and
  the division are modelled with their IEEE 754 rounding on integers.
* Lengths, piece lengths and piece indices are taken non-negative.
-/

namespace BitTorrent

/-! ## Decoded values -/

/-- The dynamic values `decodeBencode` produces: the nil interface, `string`,
`int`, `[]interface{}` and `map[string]interface{}`.  A Go map is kept as an
association list with pairwise distinct keys, in order of first insertion. -/
inductive Value where
  | nil
  | str (s : List Nat)
  | int (n : Int)
  | list (xs : List Value)
  | dict (m : List (List Nat × Value))

/-- The two errors `strconv.Atoi` reports (`ErrSyntax`, `ErrRange`). -/
inductive NumError where
  | badSyntax
  | outOfRange
deriving DecidableEq

/-- What a call of `decodeBencode` ends with: a panic, or the returned triple
`(value, next index, error)`. -/
inductive Outcome where
  | panic
  | ret (v : Value) (next : Nat) (err : Option NumError)

/-! ## Library functions used by the decoder -/

/-- `unicode.IsDigit(rune(b))` for a byte `b`: in the Latin-1 range only the
ASCII digits are digits. -/
def isDigit (c : Nat) : Bool := 48 ≤ c && c ≤ 57

/-- The digit loop of `strconv.ParseUint(s, 10, 64)`: a byte that is no digit is
a syntax error, a value that leaves 64 bits is a range error, whichever comes
first. -/
def parseUint : List Nat → Nat → Except NumError Nat
  | [], n => .ok n
  | c :: cs, n =>
    if isDigit c then
      if 2 ^ 64 ≤ n * 10 + (c - 48) then .error .outOfRange
      else parseUint cs (n * 10 + (c - 48))
    else .error .badSyntax

/-- `strconv.Atoi` on a 64-bit platform, after the Go library: an optional
sign, then at least one decimal digit, the value within `-2^63 .. 2^63 - 1`. -/
def atoi (s : List Nat) : Except NumError Int :=
  match s with
  | [] => .error .badSyntax
  | c :: cs =>
    let digits := if c = 45 ∨ c = 43 then cs else s
    match digits with
    | [] => .error .badSyntax
    | _ :: _ =>
      match parseUint digits 0 with
      | .error e => .error e
      | .ok un =>
        if c = 45 then
          if 2 ^ 63 < un then .error .outOfRange else .ok (-(un : Int))
        else
          if 2 ^ 63 ≤ un then .error .outOfRange else .ok (un : Int)

/-- The slice expression `s[lo:hi]`; `none` is the out-of-range panic. -/
def slice (s : List Nat) (lo hi : Nat) : Option (List Nat) :=
  if lo ≤ hi ∧ hi ≤ s.length then some ((s.drop lo).take (hi - lo)) else none

/-- The scanning loop `for i := start; i < len(s); i++ { if s[i] == c ... }`:
the first position at or after `start` holding `c`.  The first argument is the
part of the string from `start` on. -/
def indexFrom (c : Nat) : List Nat → Nat → Option Nat
  | [], _ => none
  | b :: bs, i => if b = c then some i else indexFrom c bs (i + 1)

/-- The assignment `m[k] = v` on a Go map. -/
def mapInsert : List (List Nat × Value) → List Nat → Value → List (List Nat × Value)
  | [], k, v => [(k, v)]
  | (k0, v0) :: m, k, v =>
    if k0 = k then (k, v) :: m else (k0, v0) :: mapInsert m k v

/-! ## decodeBencode -/

/-- The `for` loop of the list branch (lines 65-75).  `dec i` is the recursive
call `decodeBencode(bencodedString, i)`; the first numeric argument bounds the
number of iterations. -/
def listLoop (dec : Nat → Option Outcome) (s : List Nat) :
    Nat → Nat → List Value → Option Outcome
  | 0, _, _ => none
  | n + 1, i, acc =>
    match s[i]? with
    | none => some .panic
    | some c =>
      if c = 101 then some (.ret (.list acc) (i + 1) none)
      else
        match dec i with
        | none => none
        | some .panic => some .panic
        | some (.ret _ _ (some e)) => some (.ret .nil 0 (some e))
        | some (.ret v newIndex none) => listLoop dec s n newIndex (acc ++ [v])

/-- The `for` loop of the dictionary branch (lines 80-97): decode a key, decode
a value, assert that the key is a string, store the pair. -/
def dictLoop (dec : Nat → Option Outcome) (s : List Nat) :
    Nat → Nat → List (List Nat × Value) → Option Outcome
  | 0, _, _ => none
  | n + 1, i, acc =>
    match s[i]? with
    | none => some .panic
    | some c =>
      if c = 101 then some (.ret (.dict acc) (i + 1) none)
      else
        match dec i with
        | none => none
        | some .panic => some .panic
        | some (.ret _ _ (some e)) => some (.ret .nil 0 (some e))
        | some (.ret key newIndex none) =>
          match dec newIndex with
          | none => none
          | some .panic => some .panic
          | some (.ret _ _ (some e)) => some (.ret .nil 0 (some e))
          | some (.ret value newIndex2 none) =>
            match key with
            | .str k => dictLoop dec s n newIndex2 (mapInsert acc k value)
            | _ => some .panic

/-- The string branch (lines 32-48).  `firstColonIndex` stays 0 when no colon
follows.  The sum `firstColonIndex+1+length` is taken without wrap-around: a
sum that leaves the `int` range is negative in Go and one that stays in it is
larger than `len(s)`, and the slice expression panics in both cases. -/
def decodeString (s : List Nat) (index : Nat) : Outcome :=
  let firstColonIndex := (indexFrom 58 (s.drop (index + 1)) (index + 1)).getD 0
  match slice s index firstColonIndex with
  | none => .panic
  | some lengthStr =>
    match atoi lengthStr with
    | .error e => .ret (.str []) 0 (some e)
    | .ok length =>
      if length < 0 then .panic
      else
        match slice s (firstColonIndex + 1) (firstColonIndex + 1 + length.toNat) with
        | none => .panic
        | some str => .ret (.str str) (firstColonIndex + 1 + length.toNat) none

/-- The integer branch (lines 51-59); without a closing `e` the loop ends and
control reaches the final `return nil, 0, nil`. -/
def decodeInt (s : List Nat) (index : Nat) : Outcome :=
  match indexFrom 101 (s.drop (index + 1)) (index + 1) with
  | none => .ret .nil 0 none
  | some i =>
    match slice s (index + 1) i with
    | none => .panic
    | some digits =>
      match atoi digits with
      | .error e => .ret .nil 0 (some e)
      | .ok intValue => .ret (.int intValue) (i + 1) none

/-- The function `decodeBencode(bencodedString, index)`, with fuel. -/
def decodeBencode : Nat → List Nat → Nat → Option Outcome
  | 0, _, _ => none
  | fuel + 1, s, index =>
    match s[index]? with
    | none => some .panic
    | some c =>
      if isDigit c then some (decodeString s index)
      else if c = 105 then some (decodeInt s index)
      else if c = 108 then listLoop (decodeBencode fuel s) s fuel (index + 1) []
      else if c = 100 then dictLoop (decodeBencode fuel s) s fuel (index + 1) []
      else some (.ret .nil 0 none)

/-- The bytes of an ASCII string literal. -/
def bytes (s : String) : List Nat := s.toList.map Char.toNat

/-! ## The bencode grammar -/

/-- Decimal digits of a natural number, most significant first; the first
argument bounds the number of divisions. -/
def natDigits : Nat → Nat → List Nat
  | 0, n => [48 + n % 10]
  | f + 1, n => if n < 10 then [48 + n] else natDigits f (n / 10) ++ [48 + n % 10]

/-- The canonical decimal numeral of a natural number. -/
def decimalNat (n : Nat) : List Nat := natDigits n n

/-- The canonical decimal numeral of an integer, `-` for a negative one. -/
def decimalInt (n : Int) : List Nat :=
  if n < 0 then 45 :: decimalNat n.natAbs else decimalNat n.natAbs

mutual
/-- The bencode encoding as the grammar of the specification gives it: a string
is `<len>:<bytes>`, an integer `i<decimal>e`, a list `l...e`, a dictionary
`d<key><value>...e` with its entries in the order of the association list.  The
nil interface is no bencode value and has no encoding. -/
def encode : Value → List Nat
  | .nil => []
  | .str s => decimalNat s.length ++ 58 :: s
  | .int n => 105 :: decimalInt n ++ [101]
  | .list xs => 108 :: encodeList xs ++ [101]
  | .dict m => 100 :: encodeDict m ++ [101]
/-- The concatenated encodings of the elements of a list. -/
def encodeList : List Value → List Nat
  | [] => []
  | v :: vs => encode v ++ encodeList vs
/-- The concatenated encodings of the entries of a dictionary, key then value. -/
def encodeDict : List (List Nat × Value) → List Nat
  | [] => []
  | (k, v) :: m => (decimalNat k.length ++ 58 :: k) ++ encode v ++ encodeDict m
end

mutual
/-- The values the round trip is about: byte strings (a Go string is shorter
than `2^63` bytes), integers of the 64-bit `int` range, lists of such values,
and dictionaries of such values with pairwise distinct keys. -/
def isBencode : Value → Bool
  | .nil => false
  | .str s => decide (s.length < 2 ^ 63)
  | .int n => decide (-(2 ^ 63) ≤ n) && decide (n < 2 ^ 63)
  | .list xs => isBencodeList xs
  | .dict m => isBencodeDict m && decide ((m.map Prod.fst).Nodup)
/-- Every element is a bencode value. -/
def isBencodeList : List Value → Bool
  | [] => true
  | v :: vs => isBencode v && isBencodeList vs
/-- Every key is a Go string and every value a bencode value. -/
def isBencodeDict : List (List Nat × Value) → Bool
  | [] => true
  | (k, v) :: m => decide (k.length < 2 ^ 63) && isBencode v && isBencodeDict m
end

/-! ## Torrent metadata, handshake and piece download -/

/-- The struct `torrentFile`. -/
structure torrentFile where
  Announce : List Nat
  Length : Nat
  InfoHash : List Nat
  PieceLength : Nat
  Pieces : List (List Nat)

/-- A TCP connection as the program sees it: the bytes the peer sends, in the
chunks in which they become available to successive calls of `Read`, and the
bytes written so far.  A call of `Read` never returns more than the rest of
the first chunk, so the chunk boundaries are the places where a read comes
back short; no chunk left means the stream has ended. -/
structure Conn where
  incoming : List (List Nat)
  written : List Nat
deriving DecidableEq

/-- `conn.Write(b)`. -/
def Conn.write (c : Conn) (b : List Nat) : Conn :=
  { c with written := c.written ++ b }

/-- One call `conn.Read(buff)` on a fresh zeroed buffer of `n` bytes, the
returned count and error dropped as in line 238: the buffer receives at most
the rest of the first chunk and stays zero behind it; at the end of the stream
nothing is read. -/
def Conn.read (c : Conn) (n : Nat) : List Nat × Conn :=
  match c.incoming with
  | [] => (List.replicate n 0, c)
  | chunk :: rest =>
    (chunk.take n ++ List.replicate (n - (chunk.take n).length) 0,
     { c with incoming := if chunk.length ≤ n then rest else chunk.drop n :: rest })

/-- The loop of `io.ReadFull` for `n` bytes: `Read` is called on the rest of
the buffer until `n` bytes have arrived or the stream has ended.  The result is
the bytes read and the chunks left. -/
def readFullLoop : List (List Nat) → Nat → List Nat × List (List Nat)
  | [], _ => ([], [])
  | chunk :: rest, n =>
    if n = 0 then ([], chunk :: rest)
    else if chunk.length < n then
      (chunk ++ (readFullLoop rest (n - chunk.length)).1,
       (readFullLoop rest (n - chunk.length)).2)
    else (chunk.take n, if chunk.length = n then rest else chunk.drop n :: rest)

/-- The call `io.ReadFull(conn, buff)` on a fresh zeroed buffer of `n` bytes,
the returned count and error dropped as in line 246. -/
def Conn.readFull (c : Conn) (n : Nat) : List Nat × Conn :=
  ((readFullLoop c.incoming n).1 ++
      List.replicate (n - (readFullLoop c.incoming n).1.length) 0,
   { c with incoming := (readFullLoop c.incoming n).2 })

/-- The byte slice `handshake` built in `handshake` (lines 144-149) and again
in `main` (lines 345-350). -/
def handshakeMessage (tf : torrentFile) : List Nat :=
  ([19] ++ bytes "BitTorrent protocol") ++ List.replicate 8 0 ++ tf.InfoHash ++
    bytes "12345678901234567890"

/-- The function `handshake` once the connection is open: it writes the
handshake message. -/
def handshake (tf : torrentFile) (conn : Conn) : Conn :=
  conn.write (handshakeMessage tf)

/-- The conversion `uint32(x)` of a Go `int`. -/
def uint32 (x : Int) : Nat := (x % 2 ^ 32).toNat

/-- The local struct `Message` of `downloadPiece`; the fields hold `uint32`
values, `id` a `uint8`. -/
structure Message where
  lengthPrefix : Nat
  id : Nat
  index : Nat
  begin : Nat
  length : Nat
deriving DecidableEq

/-- `binary.BigEndian.PutUint32`: the four bytes of a 32-bit value, most
significant first. -/
def putUint32 (v : Nat) : List Nat :=
  [v / 2 ^ 24 % 256, v / 2 ^ 16 % 256, v / 2 ^ 8 % 256, v % 256]

/-- `binary.BigEndian.Uint32(b)` on a buffer of at least four bytes; the bytes
being below 256, the bitwise or of the shifted bytes is their sum. -/
def bigEndianUint32 (b : List Nat) : Nat :=
  b.getD 3 0 + b.getD 2 0 * 2 ^ 8 + b.getD 1 0 * 2 ^ 16 + b.getD 0 0 * 2 ^ 24

/-- `binary.Write(&buffer, binary.BigEndian, message)`: the fields in
declaration order, without padding. -/
def binaryWrite (m : Message) : List Nat :=
  putUint32 m.lengthPrefix ++ [m.id] ++ putUint32 m.index ++ putUint32 m.begin ++
    putUint32 m.length

/-- `blockSize := 16 * 1024`. -/
def blockSize : Nat := 16 * 1024

/-- `⌊log2 n⌋` by halving, at most `f` times. -/
def log2Floor : Nat → Nat → Nat
  | 0, _ => 0
  | f + 1, n => if n < 2 then 0 else log2Floor f (n / 2) + 1

/-- The integer nearest to `a / b`, a tie going to the even one. -/
def roundNearestEven (a b : Nat) : Nat :=
  if 2 * (a % b) < b then a / b
  else if b < 2 * (a % b) then a / b + 1
  else if a / b % 2 = 0 then a / b else a / b + 1

/-- The conversion `float64(x)` of a non-negative Go `int`, as the integer the
resulting float is: exact below `2^53`, otherwise rounded to 53 significant
bits, to nearest, ties to even. -/
def float64OfInt (x : Nat) : Nat :=
  if x < 2 ^ 53 then x
  else roundNearestEven x (2 ^ (log2Floor 64 x - 52)) * 2 ^ (log2Floor 64 x - 52)

/-- `int(math.Ceil(p / q))` for two positive integer-valued floats below
`2^64`: the quotient is rounded to 53 significant bits (to nearest, ties to
even) as IEEE 754 division does, then the ceiling is taken.  `E` is the
binary exponent of the quotient plus 64, so that it stays a natural number.
For `q = 0` Go divides to an infinity or a NaN, whose conversion to `int`
depends on the platform; the model gives 0 there. -/
def ceilOfQuotient (p q : Nat) : Nat :=
  if p = 0 ∨ q = 0 then 0
  else
    let lp := log2Floor 64 p
    let lq := log2Floor 64 q
    let atLeast : Bool :=
      if lq ≤ lp then decide (q * 2 ^ (lp - lq) ≤ p) else decide (q ≤ p * 2 ^ (lq - lp))
    let E := lp + 64 - lq - (if atLeast then 0 else 1)
    if E ≤ 116 then
      (roundNearestEven (p * 2 ^ (116 - E)) q + 2 ^ (116 - E) - 1) / 2 ^ (116 - E)
    else roundNearestEven p (q * 2 ^ (E - 116)) * 2 ^ (E - 116)

/-- The expression `int(math.Ceil(float64(a) / float64(b)))` of lines 209 and
213, for non-negative `a` and `b`. -/
def ceilDiv (a b : Nat) : Nat := ceilOfQuotient (float64OfInt a) (float64OfInt b)

/-- `totalPieces` (line 209). -/
def totalPieces (tf : torrentFile) : Nat := ceilDiv tf.Length tf.PieceLength

/-- The value of `pieceSize` after lines 208-212, for `PieceLength > 0`. -/
def pieceSize (tf : torrentFile) (index : Nat) : Nat :=
  if (index : Int) = (totalPieces tf : Int) - 1 then tf.Length % tf.PieceLength
  else tf.PieceLength

/-- `totalBlocks` (line 213). -/
def totalBlocks (pieceSize : Nat) : Nat := ceilDiv pieceSize blockSize

/-- `blockLen` in iteration `i` (lines 218-221). -/
def blockLen (pieceSize i : Nat) : Int :=
  if totalBlocks pieceSize = i + 1 then (pieceSize : Int) - (i : Int) * (blockSize : Int)
  else (blockSize : Int)

/-- The struct literal of lines 223-229 as a function of the three Go integers
it converts. -/
def requestMessage (index begin length : Int) : Message :=
  { lengthPrefix := 13, id := 6, index := uint32 index, begin := uint32 begin,
    length := uint32 length }

/-- The request of iteration `i`. -/
def blockRequest (pieceSize index i : Nat) : Message :=
  requestMessage (index : Int) ((i : Int) * (blockSize : Int)) (blockLen pieceSize i)

/-- What a call of `downloadPiece` ends with: a panic, or the returned pair
`(data, error)` together with the connection as it is left.  The only return
statement of the source is `return data, nil`. -/
inductive PieceOutcome where
  | panic
  | ret (data : List Nat) (err : Option NumError) (conn : Conn)
deriving DecidableEq

/-- The loop of lines 217-250; the first numeric argument is the number of
iterations left, `i` the loop variable.  The length prefix is read with one
`conn.Read`, the message with `io.ReadFull`.  `buff[0]` panics on an empty
message and `buff[9:]` on one of fewer than nine bytes. -/
def blockLoop (pieceSize index : Nat) : Nat → Nat → Conn → List Nat → PieceOutcome
  | 0, _, conn, data => .ret data none conn
  | k + 1, i, conn, data =>
    let conn1 := conn.write (binaryWrite (blockRequest pieceSize index i))
    let header := conn1.read 4
    let lengthPrefix := bigEndianUint32 header.1
    let body := header.2.readFull lengthPrefix
    if body.1.length = 0 then .panic
    else if body.1.length < 9 then .panic
    else blockLoop pieceSize index k (i + 1) body.2 (data ++ body.1.drop 9)

/-- The function `downloadPiece(conn, torrentFile, index)`. -/
def downloadPiece (conn : Conn) (tf : torrentFile) (index : Nat) : PieceOutcome :=
  blockLoop (pieceSize tf index) index (totalBlocks (pieceSize tf index)) 0 conn []

/-- The requests of one call of `downloadPiece` for a piece of the given size,
in the order the loop builds them. -/
def requests (pieceSize index : Nat) : List Message :=
  (List.range (totalBlocks pieceSize)).map (blockRequest pieceSize index)

/-- The bytes the loop writes in `k` iterations starting with iteration `i`. -/
def requestBytes (pieceSize index i k : Nat) : List Nat :=
  ((List.range' i k).map (fun j => binaryWrite (blockRequest pieceSize index j))).flatten

/-- A complete piece message as a peer sends it: the four-byte big-endian
length prefix, the ID 7, piece index and block offset as four big-endian bytes
each, then the block. -/
def pieceMessage (index begin : Nat) (block : List Nat) : List Nat :=
  putUint32 (9 + block.length) ++ 7 :: (putUint32 index ++ putUint32 begin ++ block)

/-- The stream of a peer that answers the requests from iteration `i` on, in
order, each with one piece message for the requested index and offset, every
message arriving as one chunk. -/
def responseChunks (pieceSize index : Nat) : Nat → List (List Nat) → List (List Nat)
  | _, [] => []
  | i, p :: ps =>
    pieceMessage (blockRequest pieceSize index i).index (blockRequest pieceSize index i).begin p
      :: responseChunks pieceSize index (i + 1) ps

/-- The block partition of a piece of `S` bytes as the specification states it:
`ceil(S/16384)` requests; request `i` asks for offset `i*16384` and 16384
bytes, the last one for the rest; every length is within 1..16384 and the
lengths add up to `S`. -/
def BlockPartition (S index : Nat) : Prop :=
  (requests S index).length = (S + 16383) / 16384 ∧
  (∀ i, i < (S + 16383) / 16384 →
    ((requests S index).map Message.begin)[i]? = some (i * 16384) ∧
    ((requests S index).map Message.length)[i]? =
      some (if i + 1 = (S + 16383) / 16384 then S - ((S + 16383) / 16384 - 1) * 16384
        else 16384)) ∧
  (∀ m ∈ requests S index, 1 ≤ m.length ∧ m.length ≤ 16384) ∧
  ((requests S index).map Message.length).sum = S

/-! ## Decimal numerals -/

/-- The digit loop on a concatenation runs over the first part, then over the
second. -/
theorem parseUint_append (xs ys : List Nat) : ∀ n : Nat,
    parseUint (xs ++ ys) n =
      match parseUint xs n with
      | .ok k => parseUint ys k
      | .error e => .error e := by
  induction xs with
  | nil => intro n; rfl
  | cons c cs ih =>
    intro n
    simp only [List.cons_append, parseUint]
    split
    · split
      · rfl
      · exact ih _
    · rfl

/-- The bytes `48 + d` for `d < 10` are the ASCII digits. -/
theorem isDigit_add (d : Nat) (h : d < 10) : isDigit (48 + d) = true := by
  simp [isDigit]
  omega

/-- No digit is a sign, a colon or the letter `e`. -/
theorem isDigit_ne (c : Nat) (h : isDigit c = true) :
    c ≠ 43 ∧ c ≠ 45 ∧ c ≠ 58 ∧ c ≠ 101 ∧ c ≠ 105 ∧ c ≠ 108 ∧ c ≠ 100 := by
  simp [isDigit] at h
  omega

/-- One step of the digit loop on a digit that keeps the value in 64 bits. -/
theorem parseUint_digit (d n : Nat) (cs : List Nat) (hd : d < 10) (hn : n * 10 + d < 2 ^ 64) :
    parseUint ((48 + d) :: cs) n = parseUint cs (n * 10 + d) := by
  have h1 : 48 + d - 48 = d := by omega
  simp only [parseUint, isDigit_add d hd, if_true, h1]
  split
  · omega
  · rfl

/-- The digit loop reads a numeral back to its number. -/
theorem parseUint_natDigits : ∀ (f n : Nat), n ≤ f → n < 2 ^ 64 →
    parseUint (natDigits f n) 0 = .ok n := by
  intro f
  induction f with
  | zero =>
    intro n h _
    have : n = 0 := by omega
    subst this
    rfl
  | succ f ih =>
    intro n h hn
    unfold natDigits
    by_cases h10 : n < 10
    · rw [if_pos h10, parseUint_digit n 0 [] h10 (by omega)]
      simp [parseUint]
    · have hq : n / 10 ≤ f := by omega
      have hq2 : n / 10 < 2 ^ 64 := by omega
      rw [if_neg h10, parseUint_append, ih (n / 10) hq hq2]
      simp only
      rw [parseUint_digit (n % 10) (n / 10) [] (Nat.mod_lt _ (by decide)) (by omega)]
      simp only [parseUint]
      congr 1
      omega

/-- Every byte of a numeral is an ASCII digit. -/
theorem natDigits_isDigit : ∀ (f n : Nat), ∀ c ∈ natDigits f n, isDigit c = true := by
  intro f
  induction f with
  | zero =>
    intro n c hc
    simp only [natDigits, List.mem_singleton] at hc
    subst hc
    exact isDigit_add _ (Nat.mod_lt _ (by decide))
  | succ f ih =>
    intro n c hc
    unfold natDigits at hc
    by_cases h10 : n < 10
    · rw [if_pos h10, List.mem_singleton] at hc
      subst hc
      exact isDigit_add _ h10
    · rw [if_neg h10, List.mem_append, List.mem_singleton] at hc
      rcases hc with hc | hc
      · exact ih _ c hc
      · subst hc
        exact isDigit_add _ (Nat.mod_lt _ (by decide))

/-- A numeral has at least one digit. -/
theorem natDigits_ne_nil (f n : Nat) : natDigits f n ≠ [] := by
  cases f with
  | zero => simp [natDigits]
  | succ f =>
    unfold natDigits
    split <;> simp

/-- A numeral is a digit followed by digits. -/
theorem decimalNat_cons (n : Nat) :
    ∃ c cs, decimalNat n = c :: cs ∧ isDigit c = true ∧ ∀ b ∈ cs, isDigit b = true := by
  unfold decimalNat
  cases h : natDigits n n with
  | nil => exact absurd h (natDigits_ne_nil n n)
  | cons c cs =>
    have hall := natDigits_isDigit n n
    rw [h] at hall
    exact ⟨c, cs, rfl, hall c (List.mem_cons_self _ _),
      fun b hb => hall b (List.mem_cons_of_mem _ hb)⟩

/-- `Atoi` reads the numeral of a natural number of the `int` range. -/
theorem atoi_decimalNat (n : Nat) (h : n < 2 ^ 63) : atoi (decimalNat n) = .ok (n : Int) := by
  obtain ⟨c, cs, hcs, hc, _⟩ := decimalNat_cons n
  have hp : parseUint (decimalNat n) 0 = .ok n :=
    parseUint_natDigits n n (Nat.le_refl _) (by omega)
  rw [hcs] at hp ⊢
  have hne := isDigit_ne c hc
  simp only [atoi, hne.1, hne.2.1, or_self, if_false, hp]
  split
  · omega
  · rfl

/-- `Atoi` reads the numeral of an integer of the `int` range. -/
theorem atoi_decimalInt (z : Int) (h1 : -(2 ^ 63) ≤ z) (h2 : z < 2 ^ 63) :
    atoi (decimalInt z) = .ok z := by
  unfold decimalInt
  by_cases hneg : z < 0
  · rw [if_pos hneg]
    obtain ⟨c, cs, hcs, hc, _⟩ := decimalNat_cons z.natAbs
    have hp : parseUint (decimalNat z.natAbs) 0 = .ok z.natAbs :=
      parseUint_natDigits _ _ (Nat.le_refl _) (by omega)
    rw [hcs] at hp ⊢
    simp only [atoi, true_or, if_true, hp]
    split
    · omega
    · congr 1
      omega
  · rw [if_neg hneg, atoi_decimalNat _ (by omega)]
    congr 1
    omega

/-! ## Positions in a concatenation -/

/-- The byte right after a prefix. -/
theorem byte_after_prefix (pre : List Nat) (c : Nat) (t : List Nat) :
    (pre ++ c :: t)[pre.length]? = some c := by
  rw [List.getElem?_append_right (Nat.le_refl _)]
  simp

/-- The slice that covers the middle of a three-part string. -/
theorem slice_middle (a b c : List Nat) :
    slice (a ++ b ++ c) a.length (a.length + b.length) = some b := by
  unfold slice
  have hb : a.length ≤ a.length + b.length ∧ a.length + b.length ≤ (a ++ b ++ c).length := by
    simp
  rw [if_pos hb, List.append_assoc, List.drop_left, Nat.add_sub_cancel_left, List.take_left]

/-- The scan finds the byte after a run that does not contain it. -/
theorem indexFrom_skip (c : Nat) (xs t : List Nat) (h : ∀ b ∈ xs, b ≠ c) :
    ∀ i, indexFrom c (xs ++ c :: t) i = some (i + xs.length) := by
  induction xs with
  | nil => intro i; simp [indexFrom]
  | cons x xs ih =>
    intro i
    have hx : x ≠ c := h x (List.mem_cons_self _ _)
    rw [List.cons_append, indexFrom, if_neg hx, ih (fun b hb => h b (List.mem_cons_of_mem _ hb)),
      List.length_cons]
    congr 1
    omega

/-! ## Round trip of the leaves -/

/-- The string branch on a canonical length numeral followed by a colon: the
length is read, and the outcome is decided by the slice of that many bytes. -/
theorem decodeString_numeral (n : Nat) (pre rest s : List Nat) (index : Nat) (hn : n < 2 ^ 63)
    (hs : s = pre ++ decimalNat n ++ 58 :: rest) (hi : index = pre.length) :
    decodeString s index =
      match slice s (index + (decimalNat n).length + 1)
          (index + (decimalNat n).length + 1 + n) with
      | none => .panic
      | some str => .ret (.str str) (index + (decimalNat n).length + 1 + n) none := by
  obtain ⟨c, cs, hcs, hc, hrest⟩ := decimalNat_cons n
  have hdrop : s.drop (index + 1) = cs ++ 58 :: rest := by
    rw [hs, hi, hcs]
    have : pre ++ c :: cs ++ 58 :: rest = (pre ++ [c]) ++ (cs ++ 58 :: rest) := by simp
    rw [this, show pre.length + 1 = (pre ++ [c]).length by simp, List.drop_left]
  have hlen : (decimalNat n).length = 1 + cs.length := by rw [hcs]; simp; omega
  have hcolon : indexFrom 58 (s.drop (index + 1)) (index + 1) =
      some (index + (decimalNat n).length) := by
    rw [hdrop, indexFrom_skip 58 cs _ (fun b hb => (isDigit_ne b (hrest b hb)).2.2.1), hlen]
    congr 1
    omega
  have hslice1 : slice s index (index + (decimalNat n).length) = some (decimalNat n) := by
    rw [hs, hi]
    exact slice_middle _ _ _
  unfold decodeString
  simp only [hcolon, Option.getD_some, hslice1, atoi_decimalNat _ hn]
  rw [if_neg (by omega)]
  simp only [Int.toNat_ofNat]

/-- The string branch on an encoded string. -/
theorem decodeString_encode (k pre suf s : List Nat) (index : Nat) (hk : k.length < 2 ^ 63)
    (hs : s = pre ++ (decimalNat k.length ++ 58 :: k) ++ suf) (hi : index = pre.length) :
    decodeString s index =
      .ret (.str k) (index + (decimalNat k.length ++ 58 :: k).length) none := by
  have hslice : slice s (index + (decimalNat k.length).length + 1)
      (index + (decimalNat k.length).length + 1 + k.length) = some k := by
    rw [hs, hi]
    have : pre ++ (decimalNat k.length ++ 58 :: k) ++ suf =
        (pre ++ decimalNat k.length ++ [58]) ++ k ++ suf := by simp
    rw [this, show pre.length + (decimalNat k.length).length + 1 =
      (pre ++ decimalNat k.length ++ [58]).length by simp; omega]
    exact slice_middle _ _ _
  rw [decodeString_numeral k.length pre (k ++ suf) s index hk (by rw [hs]; simp) hi, hslice]
  simp only [List.length_append, List.length_cons]
  congr 1
  omega

/-- No byte of an integer numeral is the letter `e`. -/
theorem decimalInt_no_e (z : Int) : ∀ b ∈ decimalInt z, b ≠ 101 := by
  intro b hb
  have hall := natDigits_isDigit z.natAbs z.natAbs
  unfold decimalInt at hb
  split at hb
  · rcases List.mem_cons.mp hb with h | h
    · omega
    · exact (isDigit_ne b (hall b h)).2.2.2.1
  · exact (isDigit_ne b (hall b hb)).2.2.2.1

/-- The integer branch on an encoded integer. -/
theorem decodeInt_encode (z : Int) (pre suf s : List Nat) (index : Nat)
    (h1 : -(2 ^ 63) ≤ z) (h2 : z < 2 ^ 63)
    (hs : s = pre ++ (105 :: decimalInt z ++ [101]) ++ suf) (hi : index = pre.length) :
    decodeInt s index = .ret (.int z) (index + (105 :: decimalInt z ++ [101]).length) none := by
  have hdrop : s.drop (index + 1) = decimalInt z ++ 101 :: suf := by
    rw [hs, hi]
    have : pre ++ (105 :: decimalInt z ++ [101]) ++ suf =
        (pre ++ [105]) ++ (decimalInt z ++ 101 :: suf) := by simp
    rw [this, show pre.length + 1 = (pre ++ [105]).length by simp, List.drop_left]
  have hscan : indexFrom 101 (s.drop (index + 1)) (index + 1) =
      some (index + 1 + (decimalInt z).length) := by
    rw [hdrop]
    exact indexFrom_skip 101 _ _ (decimalInt_no_e z) _
  have hslice : slice s (index + 1) (index + 1 + (decimalInt z).length) = some (decimalInt z) := by
    rw [hs, hi]
    have : pre ++ (105 :: decimalInt z ++ [101]) ++ suf =
        (pre ++ [105]) ++ decimalInt z ++ (101 :: suf) := by simp
    rw [this, show pre.length + 1 = (pre ++ [105]).length by simp]
    exact slice_middle _ _ _
  unfold decodeInt
  simp only [hscan, hslice, atoi_decimalInt z h1 h2]
  congr 1
  simp
  omega

/-- A call on an encoded string takes the string branch. -/
theorem decodeBencode_string (k pre suf s : List Nat) (index g : Nat) (hk : k.length < 2 ^ 63)
    (hs : s = pre ++ (decimalNat k.length ++ 58 :: k) ++ suf) (hi : index = pre.length) :
    decodeBencode (g + 1) s index =
      some (.ret (.str k) (index + (decimalNat k.length ++ 58 :: k).length) none) := by
  obtain ⟨c, cs, hcs, hc, _⟩ := decimalNat_cons k.length
  have hget : s[index]? = some c := by
    rw [hs, hi, hcs]
    have : pre ++ (c :: cs ++ 58 :: k) ++ suf = pre ++ c :: (cs ++ 58 :: k ++ suf) := by simp
    rw [this]
    exact byte_after_prefix _ _ _
  simp only [decodeBencode, hget, hc, if_true]
  rw [decodeString_encode k pre suf s index hk hs hi]

/-- Storing a fresh key appends the entry. -/
theorem mapInsert_fresh (k : List Nat) (v : Value) :
    ∀ acc : List (List Nat × Value), k ∉ acc.map Prod.fst → mapInsert acc k v = acc ++ [(k, v)] := by
  intro acc
  induction acc with
  | nil => intro _; rfl
  | cons kv acc ih =>
    intro h
    obtain ⟨k0, v0⟩ := kv
    simp only [List.map_cons, List.mem_cons, not_or] at h
    simp only [mapInsert, List.cons_append]
    rw [if_neg (fun h' => h.1 h'.symm), ih h.2]

/-- The encoding of a bencode value starts with its tag, which is not `e`. -/
theorem encode_head (v : Value) (hv : isBencode v = true) :
    ∃ c t, encode v = c :: t ∧ c ≠ 101 := by
  cases v with
  | nil => simp [isBencode] at hv
  | str k =>
    obtain ⟨c, cs, hcs, hc, _⟩ := decimalNat_cons k.length
    exact ⟨c, cs ++ 58 :: k, by simp [encode, hcs], (isDigit_ne c hc).2.2.2.1⟩
  | int z => exact ⟨105, decimalInt z ++ [101], by simp [encode], by decide⟩
  | list xs => exact ⟨108, encodeList xs ++ [101], by simp [encode], by decide⟩
  | dict m => exact ⟨100, encodeDict m ++ [101], by simp [encode], by decide⟩

mutual
/-- Decoding the encoding of a bencode value placed anywhere in a string gives
the value back and the offset right after it, with any fuel from the length of
the encoding on. -/
theorem decodeBencode_encode : (v : Value) → isBencode v = true →
    ∀ (fuel : Nat) (pre suf s : List Nat) (index : Nat),
      s = pre ++ encode v ++ suf → index = pre.length → (encode v).length ≤ fuel →
      decodeBencode fuel s index = some (.ret v (index + (encode v).length) none)
  | .nil, hv => by simp [isBencode] at hv
  | .str k, hv => by
    intro fuel pre suf s index hs hi hf
    simp only [isBencode, decide_eq_true_eq] at hv
    simp only [encode] at hs hf ⊢
    obtain ⟨g, rfl⟩ : ∃ g, fuel = g + 1 := ⟨fuel - 1, by simp at hf; omega⟩
    exact decodeBencode_string k pre suf s index g hv hs hi
  | .int z, hv => by
    intro fuel pre suf s index hs hi hf
    simp only [isBencode, Bool.and_eq_true, decide_eq_true_eq] at hv
    simp only [encode] at hs hf ⊢
    obtain ⟨g, rfl⟩ : ∃ g, fuel = g + 1 := ⟨fuel - 1, by simp at hf; omega⟩
    have hget : s[index]? = some 105 := by
      rw [hs, hi]
      have : pre ++ (105 :: decimalInt z ++ [101]) ++ suf =
          pre ++ 105 :: (decimalInt z ++ [101] ++ suf) := by simp
      rw [this]
      exact byte_after_prefix _ _ _
    have hnd : isDigit 105 = false := by decide
    simp only [decodeBencode, hget, hnd, if_true]
    rw [decodeInt_encode z pre suf s index hv.1 hv.2 hs hi]
    simp
  | .list xs, hv => by
    intro fuel pre suf s index hs hi hf
    simp only [isBencode] at hv
    simp only [encode] at hs hf ⊢
    obtain ⟨g, rfl⟩ : ∃ g, fuel = g + 1 := ⟨fuel - 1, by simp at hf; omega⟩
    have hget : s[index]? = some 108 := by
      rw [hs, hi]
      have : pre ++ (108 :: encodeList xs ++ [101]) ++ suf =
          pre ++ 108 :: (encodeList xs ++ [101] ++ suf) := by simp
      rw [this]
      exact byte_after_prefix _ _ _
    have hnd : isDigit 108 = false := by decide
    have hloop := listLoop_encode xs hv g g (pre ++ [108]) suf s (index + 1) []
      (by rw [hs]; simp) (by rw [hi]; simp) (by simp at hf; omega) (by simp at hf; omega)
    simp only [decodeBencode, hget, hnd]
    simp only [hloop]
    simp
    omega
  | .dict m, hv => by
    intro fuel pre suf s index hs hi hf
    simp only [isBencode, Bool.and_eq_true, decide_eq_true_eq] at hv
    simp only [encode] at hs hf ⊢
    obtain ⟨g, rfl⟩ : ∃ g, fuel = g + 1 := ⟨fuel - 1, by simp at hf; omega⟩
    have hget : s[index]? = some 100 := by
      rw [hs, hi]
      have : pre ++ (100 :: encodeDict m ++ [101]) ++ suf =
          pre ++ 100 :: (encodeDict m ++ [101] ++ suf) := by simp
      rw [this]
      exact byte_after_prefix _ _ _
    have hnd : isDigit 100 = false := by decide
    have hloop := dictLoop_encode m hv.1 hv.2 g g (pre ++ [100]) suf s (index + 1) []
      (by rw [hs]; simp) (by rw [hi]; simp) (by simp at hf; omega) (by simp at hf; omega)
      (by simp)
    simp only [decodeBencode, hget, hnd]
    simp only [hloop]
    simp
    omega
/-- The list loop on the encodings of the remaining elements followed by `e`. -/
theorem listLoop_encode : (xs : List Value) → isBencodeList xs = true →
    ∀ (f n : Nat) (pre suf s : List Nat) (index : Nat) (acc : List Value),
      s = pre ++ encodeList xs ++ 101 :: suf → index = pre.length →
      (encodeList xs).length ≤ f → (encodeList xs).length < n →
      listLoop (decodeBencode f s) s n index acc =
        some (.ret (.list (acc ++ xs)) (index + (encodeList xs).length + 1) none)
  | [], _ => by
    intro f n pre suf s index acc hs hi _ hn
    obtain ⟨m, rfl⟩ : ∃ m, n = m + 1 := ⟨n - 1, by omega⟩
    have hget : s[index]? = some 101 := by
      rw [hs, hi]
      simp only [encodeList, List.append_nil]
      exact byte_after_prefix _ _ _
    simp [listLoop, hget, encodeList]
  | v :: vs, hv => by
    intro f n pre suf s index acc hs hi hf hn
    simp only [isBencodeList, Bool.and_eq_true] at hv
    obtain ⟨c, t, hct, hc⟩ := encode_head v hv.1
    simp only [encodeList, List.length_append] at hf hn ⊢
    obtain ⟨m, rfl⟩ : ∃ m, n = m + 1 := ⟨n - 1, by omega⟩
    have hget : s[index]? = some c := by
      rw [hs, hi]
      have : pre ++ encodeList (v :: vs) ++ 101 :: suf =
          pre ++ c :: (t ++ encodeList vs ++ 101 :: suf) := by simp [encodeList, hct]
      rw [this]
      exact byte_after_prefix _ _ _
    have hdec := decodeBencode_encode v hv.1 f pre (encodeList vs ++ 101 :: suf) s index
      (by rw [hs]; simp [encodeList]) hi (by omega)
    have hpos : 0 < (encode v).length := by rw [hct]; simp
    have hrest := listLoop_encode vs hv.2 f m (pre ++ encode v) suf s
      (index + (encode v).length) (acc ++ [v])
      (by rw [hs]; simp [encodeList]) (by rw [hi]; simp) (by omega) (by omega)
    simp only [listLoop, hget, if_neg hc, hdec, hrest]
    simp
    omega
/-- The dictionary loop on the encodings of the remaining entries followed by
`e`, the keys not yet stored. -/
theorem dictLoop_encode : (m : List (List Nat × Value)) → isBencodeDict m = true →
    (m.map Prod.fst).Nodup →
    ∀ (f n : Nat) (pre suf s : List Nat) (index : Nat) (acc : List (List Nat × Value)),
      s = pre ++ encodeDict m ++ 101 :: suf → index = pre.length →
      (encodeDict m).length ≤ f → (encodeDict m).length < n →
      (∀ k ∈ m.map Prod.fst, k ∉ acc.map Prod.fst) →
      dictLoop (decodeBencode f s) s n index acc =
        some (.ret (.dict (acc ++ m)) (index + (encodeDict m).length + 1) none)
  | [], _, _ => by
    intro f n pre suf s index acc hs hi _ hn _
    obtain ⟨j, rfl⟩ : ∃ j, n = j + 1 := ⟨n - 1, by omega⟩
    have hget : s[index]? = some 101 := by
      rw [hs, hi]
      simp only [encodeDict, List.append_nil]
      exact byte_after_prefix _ _ _
    simp [dictLoop, hget, encodeDict]
  | (k, v) :: m, hv, hnd => by
    intro f n pre suf s index acc hs hi hf hn hacc
    simp only [isBencodeDict, Bool.and_eq_true, decide_eq_true_eq] at hv
    simp only [List.map_cons, List.nodup_cons] at hnd
    obtain ⟨c, cs, hcs, hc, _⟩ := decimalNat_cons k.length
    simp only [encodeDict, List.length_append, List.length_cons] at hf hn ⊢
    have hklen : (decimalNat k.length ++ 58 :: k).length =
        (decimalNat k.length).length + (k.length + 1) := by simp
    obtain ⟨j, rfl⟩ : ∃ j, n = j + 1 := ⟨n - 1, by omega⟩
    obtain ⟨g, rfl⟩ : ∃ g, f = g + 1 := ⟨f - 1, by omega⟩
    have hget : s[index]? = some c := by
      rw [hs, hi]
      have : pre ++ encodeDict ((k, v) :: m) ++ 101 :: suf =
          pre ++ c :: (cs ++ 58 :: k ++ encode v ++ encodeDict m ++ 101 :: suf) := by
        simp [encodeDict, hcs]
      rw [this]
      exact byte_after_prefix _ _ _
    have hkey := decodeBencode_string k pre (encode v ++ encodeDict m ++ 101 :: suf) s index g
      hv.1.1 (by rw [hs]; simp [encodeDict]) hi
    have hval := decodeBencode_encode v hv.1.2 (g + 1) (pre ++ (decimalNat k.length ++ 58 :: k))
      (encodeDict m ++ 101 :: suf) s (index + (decimalNat k.length ++ 58 :: k).length)
      (by rw [hs]; simp [encodeDict]) (by rw [hi]; simp) (by omega)
    have hfresh : k ∉ acc.map Prod.fst := hacc k (by simp)
    have hrest := dictLoop_encode m hv.2 hnd.2 (g + 1) j
      (pre ++ (decimalNat k.length ++ 58 :: k) ++ encode v) suf s
      (index + (decimalNat k.length ++ 58 :: k).length + (encode v).length) (acc ++ [(k, v)])
      (by rw [hs]; simp [encodeDict]) (by rw [hi]; simp; omega) (by omega) (by omega)
      (by
        intro k' hk' hmem
        simp only [List.map_append, List.map_cons, List.map_nil, List.mem_append,
          List.mem_singleton] at hmem
        rcases hmem with hmem | hmem
        · exact hacc k' (by simp [hk']) hmem
        · subst hmem
          exact hnd.1 hk')
    simp only [dictLoop, hget, if_neg (isDigit_ne c hc).2.2.2.1, hkey, hval,
      mapInsert_fresh k v acc hfresh, hrest]
    simp
    omega
end

/-- C1: for every bencode value `v` (byte strings, integers of the `int`
range, lists, dictionaries with distinct keys), `decodeBencode` at offset 0 of
the encoding of `v` returns `v` itself, a nil error and the length of the
encoding as next offset, with any fuel from that length on. -/
theorem decodeBencode_roundtrip (v : Value) (hv : isBencode v = true) (fuel : Nat)
    (hf : (encode v).length ≤ fuel) :
    decodeBencode fuel (encode v) 0 = some (.ret v (encode v).length none) := by
  have h := decodeBencode_encode v hv fuel [] [] (encode v) 0 (by simp) rfl hf
  simpa using h

/-- The round trip of `d3:foo3:bar1:li-42el0:eee`. -/
theorem decodeBencode_roundtrip_witness :
    decodeBencode 40
        (encode (.dict [(bytes "foo", .str (bytes "bar")),
          (bytes "l", .list [.int (-42), .list [.str []]])])) 0 =
      some (.ret (.dict [(bytes "foo", .str (bytes "bar")),
          (bytes "l", .list [.int (-42), .list [.str []]])])
        (encode (.dict [(bytes "foo", .str (bytes "bar")),
          (bytes "l", .list [.int (-42), .list [.str []]])])).length none) :=
  decodeBencode_roundtrip _ (by decide) 40 (by decide)

/-! ## Handshake and request framing -/

/-- C4: for a 20-byte info-hash the handshake message is the byte 0x13, the 19
bytes of "BitTorrent protocol", eight zero bytes, the info-hash and the 20
bytes of the peer-id "12345678901234567890": 68 bytes, the info-hash at offsets
28..47 and the peer-id at 48..67; `handshake` writes exactly these bytes. -/
theorem handshake_layout (tf : torrentFile) (conn : Conn) (h : tf.InfoHash.length = 20) :
    handshakeMessage tf =
        [19, 66, 105, 116, 84, 111, 114, 114, 101, 110, 116, 32, 112, 114, 111, 116, 111, 99,
          111, 108] ++ [0, 0, 0, 0, 0, 0, 0, 0] ++ tf.InfoHash ++
          [49, 50, 51, 52, 53, 54, 55, 56, 57, 48, 49, 50, 51, 52, 53, 54, 55, 56, 57, 48]
      ∧ (handshakeMessage tf).length = 68
      ∧ ((handshakeMessage tf).drop 28).take 20 = tf.InfoHash
      ∧ (handshakeMessage tf).drop 48 =
          [49, 50, 51, 52, 53, 54, 55, 56, 57, 48, 49, 50, 51, 52, 53, 54, 55, 56, 57, 48]
      ∧ (handshake tf conn).written = conn.written ++ handshakeMessage tf := by
  have hm : handshakeMessage tf =
      [19, 66, 105, 116, 84, 111, 114, 114, 101, 110, 116, 32, 112, 114, 111, 116, 111, 99,
          111, 108] ++ [0, 0, 0, 0, 0, 0, 0, 0] ++ tf.InfoHash ++
          [49, 50, 51, 52, 53, 54, 55, 56, 57, 48, 49, 50, 51, 52, 53, 54, 55, 56, 57, 48] := by
    have h1 : bytes "BitTorrent protocol" =
        [66, 105, 116, 84, 111, 114, 114, 101, 110, 116, 32, 112, 114, 111, 116, 111, 99,
          111, 108] := by decide
    have h2 : bytes "12345678901234567890" =
        [49, 50, 51, 52, 53, 54, 55, 56, 57, 48, 49, 50, 51, 52, 53, 54, 55, 56, 57, 48] := by
      decide
    simp [handshakeMessage, h1, h2]
  refine ⟨hm, ?_, ?_, ?_, rfl⟩
  · rw [hm]; simp [h]
  · rw [hm]
    have : (28 : Nat) = ([19, 66, 105, 116, 84, 111, 114, 114, 101, 110, 116, 32, 112, 114, 111,
        116, 111, 99, 111, 108] ++ [0, 0, 0, 0, 0, 0, 0, 0] : List Nat).length := by decide
    rw [List.append_assoc _ tf.InfoHash, this, List.drop_left, ← h, List.take_left]
  · rw [hm]
    have : (48 : Nat) = ([19, 66, 105, 116, 84, 111, 114, 114, 101, 110, 116, 32, 112, 114, 111,
        116, 111, 99, 111, 108] ++ [0, 0, 0, 0, 0, 0, 0, 0] ++ tf.InfoHash : List Nat).length := by
      simp [h]
    rw [this, List.drop_left]

/-- The handshake layout at the all-zero info-hash of the test fixture. -/
theorem handshake_layout_witness :
    (handshakeMessage ⟨[], 0, List.replicate 20 0, 0, []⟩).length = 68 :=
  (handshake_layout ⟨[], 0, List.replicate 20 0, 0, []⟩ ⟨[], []⟩ (by decide)).2.1

/-- Reading back the four bytes `putUint32` writes gives the value. -/
theorem bigEndianUint32_putUint32 (v : Nat) (h : v < 2 ^ 32) :
    bigEndianUint32 (putUint32 v) = v := by
  simp only [bigEndianUint32, putUint32, List.getD_cons_succ, List.getD_cons_zero]
  omega

/-- What lines 208-212 compute: the piece length, except for the piece of index
`totalPieces - 1`, which gets the remainder `Length % PieceLength` even when
that remainder is zero. -/
theorem pieceSize_eq (tf : torrentFile) (index : Nat) :
    pieceSize tf index =
      if index + 1 = totalPieces tf then tf.Length % tf.PieceLength else tf.PieceLength := by
  unfold pieceSize
  by_cases h : index + 1 = totalPieces tf
  · rw [if_pos h, if_pos (by omega)]
  · rw [if_neg h, if_neg (by omega)]

/-- C2: with `Length = 1048576` and `PieceLength = 262144` there are 4 pieces,
pieces 0..2 get 262144 bytes, and the last piece, index 3, gets the remainder
0 instead of the full piece length 262144. -/
theorem pieceSize_last_zero_remainder :
    totalPieces ⟨[], 1048576, [], 262144, []⟩ = 4 ∧
    pieceSize ⟨[], 1048576, [], 262144, []⟩ 2 = 262144 ∧
    pieceSize ⟨[], 1048576, [], 262144, []⟩ 3 = 0 ∧
    downloadPiece ⟨[], []⟩ ⟨[], 1048576, [], 262144, []⟩ 3 = .ret [] none ⟨[], []⟩ := by
  decide

/-- The halving loop brackets its argument between two powers of two. -/
theorem log2Floor_spec : ∀ (f n : Nat), 0 < n → n < 2 ^ f →
    2 ^ log2Floor f n ≤ n ∧ n < 2 ^ (log2Floor f n + 1) := by
  intro f
  induction f with
  | zero => intro n h0 h1; simp at h1; omega
  | succ f ih =>
    intro n h0 h1
    unfold log2Floor
    by_cases h2 : n < 2
    · rw [if_pos h2]
      simp
      omega
    · rw [if_neg h2]
      have hlt : n / 2 < 2 ^ f := by
        rw [Nat.pow_succ] at h1
        omega
      have := ih (n / 2) (by omega) hlt
      rw [Nat.pow_succ, Nat.pow_succ]
      rw [Nat.pow_succ] at this
      omega

/-- Below `2^53` the quotient by the block size is a float, and its ceiling is
the exact one. -/
theorem ceilDiv_blockSize (S : Nat) (h : S < 2 ^ 53) : ceilDiv S 16384 = (S + 16383) / 16384 := by
  unfold ceilDiv
  have h1 : float64OfInt S = S := by unfold float64OfInt; rw [if_pos h]
  have h2 : float64OfInt 16384 = 16384 := by decide
  rw [h1, h2]
  unfold ceilOfQuotient
  by_cases h0 : S = 0
  · subst h0; rfl
  · have hq : log2Floor 64 16384 = 14 := by decide
    have hS : S < 2 ^ 64 := by omega
    obtain ⟨hl1, hl2⟩ := log2Floor_spec 64 S (by omega) hS
    have hl : log2Floor 64 S ≤ 52 := by
      by_contra hc
      have : 2 ^ 53 ≤ 2 ^ log2Floor 64 S := Nat.pow_le_pow_right (by decide) (by omega)
      omega
    generalize log2Floor 64 S = l at hl1 hl2 hl
    have hat : (if 14 ≤ l then decide (16384 * 2 ^ (l - 14) ≤ S)
        else decide (16384 ≤ S * 2 ^ (14 - l))) = true := by
      by_cases h14 : 14 ≤ l
      · rw [if_pos h14, decide_eq_true_eq]
        have : 2 ^ l = 2 ^ 14 * 2 ^ (l - 14) := by rw [← Nat.pow_add]; congr 1; omega
        omega
      · rw [if_neg h14, decide_eq_true_eq]
        have : 2 ^ 14 = 2 ^ l * 2 ^ (14 - l) := by rw [← Nat.pow_add]; congr 1; omega
        calc 16384 = 2 ^ l * 2 ^ (14 - l) := this
          _ ≤ S * 2 ^ (14 - l) := Nat.mul_le_mul_right _ hl1
    simp only [h0, hq, hat, if_true, Nat.sub_zero]
    rw [if_neg (by decide), if_pos (by omega)]
    have hk : 116 - (l + 64 - 14) = (52 - l) + 14 := by omega
    have hp : (2 : Nat) ^ (52 - l + 14) = 2 ^ (52 - l) * 16384 := by rw [Nat.pow_add]
    rw [hk, hp]
    have hc : 0 < 2 ^ (52 - l) := Nat.pow_pos (by decide)
    generalize 2 ^ (52 - l) = c at hc
    have hr : roundNearestEven (S * (c * 16384)) 16384 = S * c := by
      unfold roundNearestEven
      have e1 : S * (c * 16384) = (S * c) * 16384 := by ring
      rw [e1, Nat.mul_mod_left, Nat.mul_div_cancel _ (by decide)]
      simp
    rw [hr]
    have e2 : S * c + c * 16384 - 1 = (c - 1) + c * (S + 16383) := by
      have e3 : c * (S + 16383) = S * c + c * 16383 := by ring
      omega
    have e4 : (c - 1) / c = 0 := Nat.div_eq_of_lt (by omega)
    rw [e2, ← Nat.div_div_eq_div_mul, Nat.add_mul_div_left _ _ hc, e4, Nat.zero_add]

/-- The ceiling of the quotient by the block size is exact on every float:
an integer `F` that is a multiple of `2^e` and lies in `2^(52+e) .. 2^(53+e)`. -/
theorem ceilOfQuotient_blockSize_float (F e : Nat) (he1 : 1 ≤ e) (he2 : e ≤ 10)
    (hdvd : F % 2 ^ e = 0) (hlo : 2 ^ (52 + e) ≤ F) (hhi : F ≤ 2 ^ (53 + e)) :
    ceilOfQuotient F 16384 = (F + 16383) / 16384 := by
  have hF64 : F < 2 ^ 64 := by
    have : (2 : Nat) ^ (53 + e) ≤ 2 ^ 63 := Nat.pow_le_pow_right (by decide) (by omega)
    omega
  have hFpos : 0 < F := by
    have : 0 < (2 : Nat) ^ (52 + e) := Nat.pow_pos (by decide)
    omega
  obtain ⟨hl1, hl2⟩ := log2Floor_spec 64 F hFpos hF64
  have hq : log2Floor 64 16384 = 14 := by decide
  have hlp1 : 52 + e ≤ log2Floor 64 F := by
    by_contra hc
    have : (2 : Nat) ^ (log2Floor 64 F + 1) ≤ 2 ^ (52 + e) :=
      Nat.pow_le_pow_right (by decide) (by omega)
    omega
  have hlp2 : log2Floor 64 F ≤ 53 + e := by
    by_contra hc
    have : (2 : Nat) ^ (53 + e + 1) ≤ 2 ^ log2Floor 64 F :=
      Nat.pow_le_pow_right (by decide) (by omega)
    have : (2 : Nat) ^ (53 + e) < 2 ^ (53 + e + 1) := Nat.pow_lt_pow_right (by decide) (by omega)
    omega
  unfold ceilOfQuotient
  rw [hq]
  generalize log2Floor 64 F = lp at hl1 hl2 hlp1 hlp2
  have h0 : ¬ (F = 0 ∨ 16384 = 0) := by omega
  have hat : (if 14 ≤ lp then decide (16384 * 2 ^ (lp - 14) ≤ F)
      else decide (16384 ≤ F * 2 ^ (14 - lp))) = true := by
    rw [if_pos (by omega), decide_eq_true_eq]
    have : 2 ^ lp = 2 ^ 14 * 2 ^ (lp - 14) := by rw [← Nat.pow_add]; congr 1; omega
    omega
  rw [if_neg h0]
  simp only [hat, if_true, Nat.sub_zero]
  have hE : lp + 64 - 14 ≤ 116 := by omega
  rw [if_pos hE]
  have hk : 116 - (lp + 64 - 14) = 66 - lp := by omega
  rw [hk]
  clear hat hE hk h0 hq
  interval_cases e <;> interval_cases lp <;>
    (norm_num at hl1 hl2 hdvd hlo hhi ⊢
     simp only [roundNearestEven]
     split <;> omega)

/-- A Go `int` from `2^53` on is converted to a float within half a unit in
the last place: a multiple of `2^e` in `2^(52+e) .. 2^(53+e)`, less than `2^e`
away. -/
theorem float64OfInt_large (S : Nat) (h1 : 2 ^ 53 ≤ S) (h2 : S < 2 ^ 63) :
    ∃ e, 1 ≤ e ∧ e ≤ 10 ∧ float64OfInt S % 2 ^ e = 0 ∧
      2 ^ (52 + e) ≤ float64OfInt S ∧ float64OfInt S ≤ 2 ^ (53 + e) ∧
      float64OfInt S < S + 2 ^ e ∧ S < float64OfInt S + 2 ^ e := by
  obtain ⟨hl1, hl2⟩ := log2Floor_spec 64 S (by omega) (by omega)
  have hlo : 53 ≤ log2Floor 64 S := by
    by_contra hc
    have : (2 : Nat) ^ (log2Floor 64 S + 1) ≤ 2 ^ 53 := Nat.pow_le_pow_right (by decide) (by omega)
    omega
  have hhi : log2Floor 64 S ≤ 62 := by
    by_contra hc
    have : (2 : Nat) ^ 63 ≤ 2 ^ log2Floor 64 S := Nat.pow_le_pow_right (by decide) (by omega)
    omega
  refine ⟨log2Floor 64 S - 52, by omega, by omega, ?_⟩
  unfold float64OfInt
  rw [if_neg (by omega)]
  generalize log2Floor 64 S = l at hl1 hl2 hlo hhi
  interval_cases l <;>
    (norm_num at hl1 hl2 ⊢
     simp only [roundNearestEven]
     split
     · omega
     · split
       · omega
       · split <;> omega)

/-- The number of blocks of a non-empty piece of a Go `int` size: the last
block starts inside the piece and is at most 1024 bytes longer than a block. -/
theorem ceilDiv_blockSize_bracket (S : Nat) (h0 : 0 < S) (h : S < 2 ^ 63) :
    1 ≤ ceilDiv S 16384 ∧ (ceilDiv S 16384 - 1) * 16384 < S ∧
      S ≤ (ceilDiv S 16384 - 1) * 16384 + 17408 := by
  by_cases hs : S < 2 ^ 53
  · rw [ceilDiv_blockSize S hs]
    omega
  · obtain ⟨e, he1, he2, hdvd, hlo, hhi, hn1, hn2⟩ := float64OfInt_large S (by omega) h
    have h2 : float64OfInt 16384 = 16384 := by decide
    unfold ceilDiv
    rw [h2, ceilOfQuotient_blockSize_float _ e he1 he2 hdvd hlo hhi]
    generalize float64OfInt S = F at hdvd hlo hhi hn1 hn2
    interval_cases e <;> (norm_num at hdvd hlo hhi hn1 hn2; omega)

/-- The number of blocks is the ceiling of `S / 16384` while `S` converts to
`float64` exactly. -/
theorem totalBlocks_eq (S : Nat) (h : S < 2 ^ 53) : totalBlocks S = (S + 16383) / 16384 := by
  unfold totalBlocks
  exact ceilDiv_blockSize S h

/-- For every non-empty piece of a Go `int` size there is at least one block,
and the last block starts inside the piece, at most 17408 bytes before its
end. -/
theorem totalBlocks_bracket (S : Nat) (h0 : 0 < S) (h : S < 2 ^ 63) :
    1 ≤ totalBlocks S ∧ (totalBlocks S - 1) * 16384 < S ∧
      S ≤ (totalBlocks S - 1) * 16384 + 17408 := by
  unfold totalBlocks
  exact ceilDiv_blockSize_bracket S h0 h

/-- An empty piece has no block. -/
theorem totalBlocks_zero : totalBlocks 0 = 0 := by decide

/-- The offset field of request `i` while `i * 16384` fits 32 bits. -/
theorem blockRequest_begin (S index i : Nat) (h : i * 16384 < 2 ^ 32) :
    (blockRequest S index i).begin = i * 16384 := by
  simp only [blockRequest, requestMessage, blockSize]
  unfold uint32
  omega

/-- The length field of request `i` of the loop: 16384, and the rest of the
piece in the last iteration. -/
theorem blockRequest_length (S index i : Nat) (hS : S < 2 ^ 63) :
    (blockRequest S index i).length =
      if i + 1 = totalBlocks S then S - i * 16384 else 16384 := by
  simp only [blockRequest, requestMessage, blockLen, blockSize]
  unfold uint32
  by_cases hlast : totalBlocks S = i + 1
  · rw [if_pos hlast, if_pos hlast.symm]
    rcases Nat.eq_zero_or_pos S with h0 | h0
    · subst h0
      rw [totalBlocks_zero] at hlast
      omega
    · have hb := totalBlocks_bracket S h0 hS
      omega
  · rw [if_neg hlast, if_neg (fun h' => hlast h'.symm)]
    omega

/-- Every requested length is at least 1 and fits the length prefix of the
answer. -/
theorem blockRequest_length_bounds (S index i : Nat) (hS : S < 2 ^ 63) :
    1 ≤ (blockRequest S index i).length ∧ (blockRequest S index i).length ≤ 17408 := by
  rw [blockRequest_length S index i hS]
  split
  · rcases Nat.eq_zero_or_pos S with h0 | h0
    · subst h0
      rw [totalBlocks_zero] at *
      omega
    · have hb := totalBlocks_bracket S h0 hS
      omega
  · omega

/-- A sum over `range k` of a function constant on it. -/
theorem sum_map_range_const (f : Nat → Nat) (c : Nat) :
    ∀ k : Nat, (∀ i, i < k → f i = c) → ((List.range k).map f).sum = k * c := by
  intro k
  induction k with
  | zero => intro _; simp
  | succ k ih =>
    intro h
    rw [List.range_succ, List.map_append, List.sum_append,
      ih (fun i hi => h i (Nat.lt_succ_of_lt hi))]
    simp [h k (Nat.lt_succ_self k)]
    ring

/-- The requested lengths of a piece add up to the piece size. -/
theorem sum_request_lengths (S index : Nat) (hS : S < 2 ^ 63) :
    ((List.range (totalBlocks S)).map (fun i => (blockRequest S index i).length)).sum = S := by
  rcases Nat.eq_zero_or_pos S with hz | hz
  · subst hz
    rw [totalBlocks_zero]
    rfl
  · have hn := totalBlocks_bracket S hz hS
    obtain ⟨k, hk⟩ : ∃ k, totalBlocks S = k + 1 := ⟨totalBlocks S - 1, by omega⟩
    rw [hk, List.range_succ, List.map_append, List.sum_append,
      sum_map_range_const _ 16384 k (fun i hi => by
        rw [blockRequest_length S index i hS, if_neg (by omega)])]
    simp only [List.map_cons, List.map_nil, List.sum_cons, List.sum_nil]
    rw [blockRequest_length S index k hS, if_pos hk.symm]
    omega

/-- Whatever the peer sends, a call of the loop that returns has written the
requests of its iterations, in order, and nothing else. -/
theorem blockLoop_written (S index : Nat) :
    ∀ (k i : Nat) (conn : Conn) (data d : List Nat) (c : Conn),
      blockLoop S index k i conn data = .ret d none c →
      c.written = conn.written ++ requestBytes S index i k := by
  intro k
  induction k with
  | zero =>
    intro i conn data d c h
    simp only [blockLoop, PieceOutcome.ret.injEq] at h
    rw [← h.2.2]
    simp [requestBytes]
  | succ k ih =>
    intro i conn data d c h
    simp only [blockLoop] at h
    split at h
    · exact absurd h (by simp)
    · split at h
      · exact absurd h (by simp)
      · rw [ih _ _ _ _ _ h]
        have hw : ((Conn.read (Conn.write conn (binaryWrite (blockRequest S index i))) 4).2.readFull
            (bigEndianUint32
              (Conn.read (Conn.write conn (binaryWrite (blockRequest S index i))) 4).1)).2.written
            = conn.written ++ binaryWrite (blockRequest S index i) := by
          simp only [Conn.readFull, Conn.read, Conn.write]
          split <;> rfl
        rw [hw]
        simp [requestBytes, List.range'_succ]

/-- C3 as stated fails beyond 32 bits: for a piece of `2^32 + 1` bytes the
request of block 262144 carries the offset 0, not `262144 * 16384 = 2^32`. -/
theorem blockPartition_fails_above_uint32 : ¬ BlockPartition 4294967297 0 := by
  intro h
  have h1 := (h.2.1 262144 (by decide)).1
  have hlt : 262144 < totalBlocks 4294967297 := by decide
  simp only [requests, List.map_map, List.getElem?_map, List.getElem?_range hlt,
    Option.map_some', Function.comp_apply, Option.some.injEq] at h1
  revert h1
  decide

/-- C3, amended: for every piece size `1 ≤ S ≤ 2^32` the loop issues exactly
`ceil(S/16384)` requests in ascending order, request `i` for offset `i*16384`
and 16384 bytes, the last for the remaining `S - (n-1)*16384`; every length is
within 1..16384 and the lengths add up to `S`; a call of `downloadPiece` that
returns has written exactly these requests, in this order. -/
theorem blockPartition_upto_uint32 (S index : Nat) (h1 : 1 ≤ S) (h2 : S ≤ 2 ^ 32) :
    BlockPartition S index ∧
      ∀ (conn : Conn) (tf : torrentFile) (d : List Nat) (c : Conn),
        pieceSize tf index = S → downloadPiece conn tf index = .ret d none c →
        c.written = conn.written ++ ((requests S index).map binaryWrite).flatten := by
  have hS : S < 2 ^ 63 := by omega
  have hn := totalBlocks_eq S (by omega)
  refine ⟨⟨by simp [requests, hn], ?_, ?_, ?_⟩, ?_⟩
  · intro i hi
    have hi' : i < totalBlocks S := by omega
    simp only [requests, List.map_map, List.getElem?_map, List.getElem?_range hi',
      Option.map_some', Function.comp_apply, Option.some.injEq]
    refine ⟨blockRequest_begin S index i (by omega), ?_⟩
    rw [blockRequest_length S index i hS, hn]
    split <;> omega
  · intro m hm
    simp only [requests, List.mem_map, List.mem_range] at hm
    obtain ⟨i, hi, rfl⟩ := hm
    rw [blockRequest_length S index i hS, hn]
    split <;> omega
  · simp only [requests, List.map_map]
    exact sum_request_lengths S index hS
  · intro conn tf d c hps hrun
    unfold downloadPiece at hrun
    rw [hps] at hrun
    rw [blockLoop_written S index _ _ _ _ _ _ hrun]
    simp [requestBytes, requests, List.range_eq_range']
    rfl

/-- The partition of a piece of 65536 bytes: four requests. -/
theorem blockPartition_upto_uint32_witness :
    1 ≤ 65536 ∧ 65536 ≤ 2 ^ 32 ∧ BlockPartition 65536 0 :=
  ⟨by decide, by decide, (blockPartition_upto_uint32 65536 0 (by decide) (by decide)).1⟩

/-! ## Piece assembly -/

/-- The loop on a stream in which every answer is a complete piece message that
arrives as one chunk: every request is written, every message is consumed, and
the blocks are appended in order. -/
theorem blockLoop_whole_messages (S index : Nat) :
    ∀ (ps : List (List Nat)) (i : Nat) (rest : List (List Nat)) (w data : List Nat),
      (∀ p ∈ ps, 9 + p.length < 2 ^ 32) →
      blockLoop S index ps.length i ⟨responseChunks S index i ps ++ rest, w⟩ data =
        .ret (data ++ ps.flatten) none ⟨rest, w ++ requestBytes S index i ps.length⟩ := by
  intro ps
  induction ps with
  | nil => intro i rest w data _; simp [blockLoop, responseChunks, requestBytes]
  | cons p ps ih =>
    intro i rest w data hp
    have hlt : 9 + p.length < 2 ^ 32 := hp p (List.mem_cons_self _ _)
    have h9 : (7 :: (putUint32 (blockRequest S index i).index ++
        putUint32 (blockRequest S index i).begin ++ p)).length = 9 + p.length := by
      simp [putUint32]; omega
    have hhead : Conn.read (Conn.write ⟨responseChunks S index i (p :: ps) ++ rest, w⟩
        (binaryWrite (blockRequest S index i))) 4 =
        (putUint32 (9 + p.length),
          ⟨(7 :: (putUint32 (blockRequest S index i).index ++
              putUint32 (blockRequest S index i).begin ++ p)) ::
            (responseChunks S index (i + 1) ps ++ rest),
           w ++ binaryWrite (blockRequest S index i)⟩) := by
      simp only [Conn.write, Conn.read, responseChunks, pieceMessage, List.cons_append]
      have hlen : ¬ (putUint32 (9 + p.length) ++ 7 :: (putUint32 (blockRequest S index i).index ++
          putUint32 (blockRequest S index i).begin ++ p)).length ≤ 4 := by
        simp [putUint32]
      have htake : (putUint32 (9 + p.length) ++ 7 :: (putUint32 (blockRequest S index i).index ++
          putUint32 (blockRequest S index i).begin ++ p)).take 4 = putUint32 (9 + p.length) :=
        List.take_left' rfl
      have hdrop : (putUint32 (9 + p.length) ++ 7 :: (putUint32 (blockRequest S index i).index ++
          putUint32 (blockRequest S index i).begin ++ p)).drop 4 =
          7 :: (putUint32 (blockRequest S index i).index ++
            putUint32 (blockRequest S index i).begin ++ p) :=
        List.drop_left' rfl
      rw [if_neg hlen, htake, hdrop]
      simp [putUint32]
    have hbody : Conn.readFull ⟨(7 :: (putUint32 (blockRequest S index i).index ++
              putUint32 (blockRequest S index i).begin ++ p)) ::
            (responseChunks S index (i + 1) ps ++ rest),
           w ++ binaryWrite (blockRequest S index i)⟩ (9 + p.length) =
        (7 :: (putUint32 (blockRequest S index i).index ++
              putUint32 (blockRequest S index i).begin ++ p),
          ⟨responseChunks S index (i + 1) ps ++ rest,
            w ++ binaryWrite (blockRequest S index i)⟩) := by
      simp only [Conn.readFull, readFullLoop]
      rw [if_neg (by omega), if_neg (by rw [h9]; omega), if_pos h9, ← h9, List.take_length]
      simp
    have hdrop9 : (7 :: (putUint32 (blockRequest S index i).index ++
        putUint32 (blockRequest S index i).begin ++ p)).drop 9 = p := by
      simp [putUint32]
    simp only [List.length_cons, blockLoop]
    rw [hhead]
    simp only [bigEndianUint32_putUint32 _ hlt]
    rw [hbody]
    simp only [h9]
    rw [if_neg (by omega), if_neg (by omega), hdrop9,
      ih (i + 1) rest _ _ (fun q hq => hp q (List.mem_cons_of_mem _ hq))]
    simp [requestBytes, List.range'_succ, List.append_assoc]

/-- What `downloadPiece` does when every answer is a complete piece message
with the requested number of bytes that arrives as one chunk: it returns the
blocks concatenated in request order with a nil error, and the buffer has the
length `pieceSize` of lines 208-212 (`PieceLength` a positive Go `int`). -/
theorem downloadPiece_whole_messages (tf : torrentFile) (index : Nat)
    (payloads : List (List Nat)) (rest : List (List Nat)) (w : List Nat)
    (hp : 0 < tf.PieceLength) (hP : tf.PieceLength < 2 ^ 63)
    (hcount : payloads.length = totalBlocks (pieceSize tf index))
    (hlen : ∀ i (h : i < payloads.length),
      (payloads.get ⟨i, h⟩).length = (blockRequest (pieceSize tf index) index i).length) :
    downloadPiece ⟨responseChunks (pieceSize tf index) index 0 payloads ++ rest, w⟩ tf index =
        .ret payloads.flatten none
          ⟨rest, w ++ ((requests (pieceSize tf index) index).map binaryWrite).flatten⟩
      ∧ payloads.flatten.length = pieceSize tf index := by
  have hS : pieceSize tf index < 2 ^ 63 := by
    rw [pieceSize_eq]
    have := Nat.mod_lt tf.Length hp
    split <;> omega
  have hbound : ∀ p ∈ payloads, 9 + p.length < 2 ^ 32 := by
    intro p hq
    obtain ⟨⟨i, hi⟩, rfl⟩ := List.mem_iff_get.mp hq
    rw [hlen i hi]
    have := (blockRequest_length_bounds (pieceSize tf index) index i hS).2
    omega
  have hrun := blockLoop_whole_messages (pieceSize tf index) index payloads 0 rest w [] hbound
  constructor
  · unfold downloadPiece
    rw [← hcount, hrun]
    simp [requestBytes, requests, List.range_eq_range', hcount]
    rfl
  · have hmap : payloads.map List.length =
        (List.range (totalBlocks (pieceSize tf index))).map
          (fun i => (blockRequest (pieceSize tf index) index i).length) := by
      apply List.ext_get
      · simp [hcount]
      · intro i h1 h2
        simp only [List.get_eq_getElem, List.getElem_map, List.getElem_range]
        have := hlen i (by simpa using h1)
        simpa using this
    rw [List.length_flatten, hmap]
    exact sum_request_lengths _ _ hS

/-- C6: two inputs on which the piece is not assembled.  For `Length = 1048576`
and `PieceLength = 262144` the last piece, index 3, is expected to have 262144
bytes, but on every connection `downloadPiece` returns an empty buffer without
writing a request.  For a one-byte piece the peer answers the request with the
complete piece message `00 00 00 0A 07 00000000 00000000 58`: when the message
arrives as one chunk the byte `58` is returned, when its first two bytes arrive
ahead of the rest the single `conn.Read` of line 238 yields the length prefix 0
and `buff[0]` panics. -/
theorem downloadPiece_assembly_fails :
    (∀ conn : Conn, downloadPiece conn ⟨[], 1048576, [], 262144, []⟩ 3 = .ret [] none conn) ∧
    downloadPiece ⟨[[0, 0, 0, 10, 7, 0, 0, 0, 0, 0, 0, 0, 0, 88]], []⟩ ⟨[], 1, [], 16384, []⟩ 0 =
      .ret [88] none ⟨[], [0, 0, 0, 13, 6, 0, 0, 0, 0, 0, 0, 0, 0, 0, 0, 0, 1]⟩ ∧
    downloadPiece ⟨[[0, 0], [0, 10, 7, 0, 0, 0, 0, 0, 0, 0, 0, 88]], []⟩ ⟨[], 1, [], 16384, []⟩ 0 =
      .panic := by
  refine ⟨?_, by decide, by decide⟩
  intro conn
  have h0 : pieceSize ⟨[], 1048576, [], 262144, []⟩ 3 = 0 := by decide
  unfold downloadPiece
  rw [h0, totalBlocks_zero]
  rfl

/-- The loop of `downloadPiece` ends in a panic or returns a nil error. -/
theorem blockLoop_no_error (S index : Nat) :
    ∀ (k i : Nat) (conn : Conn) (data : List Nat),
      blockLoop S index k i conn data = .panic ∨
        ∃ d c, blockLoop S index k i conn data = .ret d none c := by
  intro k
  induction k with
  | zero => intro i conn data; exact Or.inr ⟨data, conn, rfl⟩
  | succ k ih =>
    intro i conn data
    simp only [blockLoop]
    split
    · exact Or.inl rfl
    · split
      · exact Or.inl rfl
      · exact ih _ _ _

/-- C7: `downloadPiece` never returns an error, whatever the peer sends; when a
peer answers the request for block 0 of piece 0 with a message of ID 0 that
names piece 9 and offset 5, the last byte of that message is returned as piece
data with a nil error. -/
theorem downloadPiece_accepts_any_message :
    (∀ (conn : Conn) (tf : torrentFile) (index : Nat),
      downloadPiece conn tf index = .panic ∨
        ∃ d c, downloadPiece conn tf index = .ret d none c) ∧
    downloadPiece ⟨[[0, 0, 0, 10, 0, 0, 0, 0, 9, 0, 0, 0, 5, 88]], []⟩ ⟨[], 1, [], 16384, []⟩ 0 =
      .ret [88] none ⟨[], [0, 0, 0, 13, 6, 0, 0, 0, 0, 0, 0, 0, 0, 0, 0, 0, 1]⟩ := by
  refine ⟨fun conn tf index => blockLoop_no_error _ _ _ _ _ _, ?_⟩
  decide

/-! ## Decoder: malformed input -/

/-- C8: at every in-range offset whose byte is not a digit, `i`, `l` or `d`
the decoder returns the nil value, offset 0 and a nil error. -/
theorem decodeBencode_unknown_tag_no_error (fuel : Nat) (s : List Nat) (index c : Nat)
    (hc : s[index]? = some c) (hdigit : isDigit c = false)
    (hi : c ≠ 105) (hl : c ≠ 108) (hd : c ≠ 100) :
    decodeBencode (fuel + 1) s index = some (.ret .nil 0 none) := by
  simp [decodeBencode, hc, hdigit, hi, hl, hd]

/-- The unknown tag `x` at offset 0. -/
theorem decodeBencode_unknown_tag_no_error_witness :
    decodeBencode 1 (bytes "x") 0 = some (.ret .nil 0 none) :=
  decodeBencode_unknown_tag_no_error 0 (bytes "x") 0 120 (by decide) (by decide) (by decide)
    (by decide) (by decide)

/-- C9: on a string whose canonical length numeral `n` (below `2^63`) exceeds
the number of bytes after the colon, the slice expression of line 48 leaves
the input and the decoder panics instead of returning an error. -/
theorem decodeBencode_string_overrun_panics (fuel n : Nat) (pre rest : List Nat)
    (hn : n < 2 ^ 63) (hshort : rest.length < n) :
    decodeBencode (fuel + 1) (pre ++ decimalNat n ++ 58 :: rest) pre.length = some .panic := by
  obtain ⟨c, cs, hcs, hc, _⟩ := decimalNat_cons n
  have hget : (pre ++ decimalNat n ++ 58 :: rest)[pre.length]? = some c := by
    rw [hcs]
    have : pre ++ c :: cs ++ 58 :: rest = pre ++ c :: (cs ++ 58 :: rest) := by simp
    rw [this]
    exact byte_after_prefix _ _ _
  have hslice : slice (pre ++ decimalNat n ++ 58 :: rest) (pre.length + (decimalNat n).length + 1)
      (pre.length + (decimalNat n).length + 1 + n) = none := by
    unfold slice
    rw [if_neg]
    simp only [List.length_append, List.length_cons]
    omega
  simp only [decodeBencode, hget, hc, if_true]
  rw [decodeString_numeral n pre rest _ pre.length hn rfl rfl, hslice]

/-- The input `4:ab` at offset 0. -/
theorem decodeBencode_string_overrun_panics_witness :
    decodeBencode 1 (bytes "4:ab") 0 = some .panic :=
  decodeBencode_string_overrun_panics 0 4 [] (bytes "ab") (by decide) (by decide)

/-- C10: in `lxe` the element at offset 1 has an unknown tag and returns the
next offset 0, so the list loop that started at offset 0 calls the decoder at
offset 0 again, and the call at offset 0 never returns, whatever the fuel. -/
theorem decodeBencode_list_restarts_at_zero :
    decodeBencode 1 (bytes "lxe") 1 = some (.ret .nil 0 none) ∧
    ∀ fuel, decodeBencode fuel (bytes "lxe") 0 = none := by
  refine ⟨rfl, ?_⟩
  intro fuel
  induction fuel with
  | zero => rfl
  | succ f ih =>
    have h0 : decodeBencode (f + 1) (bytes "lxe") 0 =
        listLoop (decodeBencode f (bytes "lxe")) (bytes "lxe") f 1 [] := rfl
    rw [h0]
    cases f with
    | zero => rfl
    | succ g =>
      have h1 : listLoop (decodeBencode (g + 1) (bytes "lxe")) (bytes "lxe") (g + 1) 1 [] =
          listLoop (decodeBencode (g + 1) (bytes "lxe")) (bytes "lxe") g 0 [.nil] := rfl
      rw [h1]
      cases g with
      | zero => rfl
      | succ k =>
        have h2 : listLoop (decodeBencode (k + 1 + 1) (bytes "lxe")) (bytes "lxe") (k + 1) 0
            [.nil] = (match decodeBencode (k + 1 + 1) (bytes "lxe") 0 with
              | none => none
              | some .panic => some .panic
              | some (.ret _ _ (some e)) => some (.ret .nil 0 (some e))
              | some (.ret v newIndex none) =>
                listLoop (decodeBencode (k + 1 + 1) (bytes "lxe")) (bytes "lxe") k newIndex
                  ([.nil] ++ [v])) := rfl
        rw [h2, ih]

end BitTorrent
